import Mathlib

/-!
Shallow embedding of the SkipCTS python tutorial repository's sequence model.

The repository ships only the tutorial notebook
`src/python/tutorials/text_prediction_tutorial.ipynb`; the `cts.model`
module it imports (`CTS`, `ContextualSequenceModel`) is not under `src/`.
Consequently the core engine below is modelled from the specification
(spec.md §§2-7), with the notebook as the authority for the usage it
demonstrates (construction with and without an alphabet, `update`,
`observe`, `sample`, the `context` snapshot, the `alphabet` attribute).

Probabilities are embedded as exact rationals (ℚ); the floating-point
tolerances of the spec are therefore met exactly wherever equality is
proved.  Logarithms, which the real `update` returns, are treated at the
statement level via `Real.log` of the (computable) rational probability.
-/

namespace SkipCTS

/-- Error kinds of the spec (§7): configuration errors at construction,
symbol errors at `update`/`observe`/context-set. -/
inductive Err where
  | invalidConfiguration
  | invalidSymbol
deriving DecidableEq, Repr

/-- Modelled from the spec: `PriorPolicy` variant (§3) selecting the
pseudo-count scheme used by every local estimator. -/
inductive PriorPolicy where
  | perks
  | laplace
  | jeffreys
  | fixed (v : ℚ)
deriving DecidableEq, Repr

/-- Modelled from the spec: `pseudoCount(alphabetSize)` (§3):
Perks = 1/A, Laplace = 1, Jeffreys = 0.5, Fixed = the given constant. -/
def PriorPolicy.pseudoCount : PriorPolicy → Nat → ℚ
  | .perks, A => 1 / A
  | .laplace, _ => 1
  | .jeffreys, _ => 1 / 2
  | .fixed v, _ => v

/-- Constructor argument for the prior: a string token (as in the
notebook, e.g. `symbol_prior='laplace'`) or an explicit pseudo-count. -/
inductive PriorArg where
  | token (s : String)
  | value (v : ℚ)

/-- Modelled from the spec: resolved model configuration.  `alphabet` is
the fixed ordered symbol list (§3), `contextLength` is the maximum
context depth D, `alpha` the per-symbol pseudo-count resolved from the
prior, and `gamma` the fixed "switch" perturbation constant of §4.2 -
flagged by the spec (§9) as an open parameter; all results below hold
for any `gamma ∈ [0,1]`. -/
structure Config (σ : Type) where
  alphabet : List σ
  contextLength : Nat
  alpha : ℚ
  gamma : ℚ

/-- Configuration well-formedness established by the validated
constructor: non-empty duplicate-free alphabet, positive pseudo-count,
switch perturbation in [0,1]. -/
def Config.Valid {σ : Type} (cfg : Config σ) : Prop :=
  cfg.alphabet ≠ [] ∧ cfg.alphabet.Nodup ∧ 0 < cfg.alpha ∧
    0 ≤ cfg.gamma ∧ cfg.gamma ≤ 1

instance {σ : Type} [DecidableEq σ] (cfg : Config σ) :
    Decidable cfg.Valid := by
  unfold Config.Valid; infer_instance

/-- Modelled from the spec: the per-node data of a `ContextTreeNode`
(§3): the LocalEstimator's raw symbol counts and the switching weight w.
Children live in the tree's path-indexed node map. -/
structure NodeData (σ : Type) where
  counts : σ → Nat
  w : ℚ

/-- A freshly created node: zero counts, switching weight 1/2 (the
conventional uniform switching prior; exact value an open parameter of
the spec, §9). -/
def NodeData.fresh (σ : Type) : NodeData σ :=
  ⟨fun _ => 0, 1 / 2⟩

/-- Modelled from the spec: the sparse context tree (§3, §9), embedded
as a map from context paths (most-recent symbol first, as traversed
from the root) to optional node data; `none` means the node was never
created.  The arena-of-nodes representation suggested by §9 is
abstracted to this path-keyed map. -/
structure Tree (σ : Type) where
  nodes : List σ → Option (NodeData σ)

/-- The node at a path, defaulting to a fresh node when absent (the
lazily-created node a traversal would instantiate there). -/
def Tree.node {σ : Type} (t : Tree σ) (p : List σ) : NodeData σ :=
  (t.nodes p).getD (NodeData.fresh σ)

/-- Overwrite (or lazily create) the node at one path. -/
def Tree.setNode {σ : Type} [DecidableEq σ] (t : Tree σ) (p : List σ)
    (nd : NodeData σ) : Tree σ :=
  ⟨fun q => if q = p then some nd else t.nodes q⟩

/-- The untrained tree: only the root exists, freshly initialised. -/
def Tree.init (σ : Type) [DecidableEq σ] : Tree σ :=
  ⟨fun p => if p = [] then some (NodeData.fresh σ) else none⟩

/-- Raw observation total N of a node's estimator: the sum of its raw
counts over the alphabet. -/
def totalCount {σ : Type} (cfg : Config σ) (nd : NodeData σ) : ℚ :=
  ((cfg.alphabet.map nd.counts).sum : ℕ)

/-- Modelled from the spec: the LocalEstimator predictive probability
(§3): `(count[i] + α) / (N + A·α)`. -/
def estProb {σ : Type} (cfg : Config σ) (nd : NodeData σ) (s : σ) : ℚ :=
  (nd.counts s + cfg.alpha) /
    (totalCount cfg nd + cfg.alphabet.length * cfg.alpha)

/-- Modelled from the spec: `ownProbability` of §4.2, the node's own
LocalEstimator prediction. -/
def ownProbability {σ : Type} (cfg : Config σ) (nd : NodeData σ) (s : σ) : ℚ :=
  estProb cfg nd s

/-- Modelled from the spec: the recursive mixed probability of §4.2,
evaluated top-down along the reversed context window `ctxRev`
(most-recent symbol first).  At the deepest reachable node, or when no
child exists for the next-deeper context symbol, the mixed probability
reduces to the node's own probability (spec: childProbability =
ownProbability there, and w·p + (1-w)·p = p). -/
def mixProb {σ : Type} (cfg : Config σ) (t : Tree σ) :
    List σ → NodeData σ → List σ → σ → ℚ
  | _, nd, [], s => estProb cfg nd s
  | path, nd, c :: rest, s =>
    match t.nodes (path ++ [c]) with
    | none => estProb cfg nd s
    | some child =>
        nd.w * estProb cfg nd s +
          (1 - nd.w) * mixProb cfg t (path ++ [c]) child rest s

/-- Modelled from the spec: `childProbability` of §4.2, written exactly
as the spec's case split: the child's recursive mixed probability when
the recursion continues (`ctxRev` nonempty) and a child exists for the
next-deeper context symbol, else `ownProbability`. -/
def childProbability {σ : Type} (cfg : Config σ) (t : Tree σ)
    (path : List σ) (nd : NodeData σ) (ctxRev : List σ) (s : σ) : ℚ :=
  match ctxRev with
  | [] => ownProbability cfg nd s
  | c :: rest =>
    match t.nodes (path ++ [c]) with
    | none => ownProbability cfg nd s
    | some child => mixProb cfg t (path ++ [c]) child rest s

/-- The effective traversal path for a context window (most-recent-last,
as stored by `SequenceContext`): reversed and capped at depth D. -/
def effCtx {σ : Type} (cfg : Config σ) (context : List σ) : List σ :=
  context.reverse.take cfg.contextLength

/-- Modelled from the spec: `predictiveDistribution` at one symbol
(§4.3): the root's recursively mixed probability. -/
def ctsPredict {σ : Type} (cfg : Config σ) (t : Tree σ)
    (context : List σ) (s : σ) : ℚ :=
  mixProb cfg t [] (t.node []) (effCtx cfg context) s

/-- Modelled from the spec: the Bayesian switching-weight update of
§4.2, `w' = w·own / (w·own + (1-w)·child)`, applied with the fixed
switch perturbation `gamma` toward the opposite hypothesis before
renormalising. -/
def newWeight {σ : Type} (cfg : Config σ) (w own child : ℚ) : ℚ :=
  ((1 - cfg.gamma) * (w * own) + cfg.gamma * ((1 - w) * child)) /
    (w * own + (1 - w) * child)

/-- Increment one raw symbol count. -/
def bump {σ : Type} [DecidableEq σ] (counts : σ → Nat) (s : σ) : σ → Nat :=
  fun a => if a = s then counts a + 1 else counts a

/-- Modelled from the spec: the combined predictive/update pass of §4.2
(`trainOn`'s per-node work).  Traverses the path given by the reversed
context window; at each visited node computes own/child/mixed
probabilities from the *current* (pre-mutation) tree, then updates the
LocalEstimator counts and the switching weight, creating missing nodes
lazily.  Returns the root's mixed probability for the observed symbol
together with the updated tree. -/
def updateAt {σ : Type} [DecidableEq σ] (cfg : Config σ) (t : Tree σ) :
    List σ → List σ → σ → ℚ × Tree σ
  | path, [], s =>
    let nd := t.node path
    let own := estProb cfg nd s
    (own, t.setNode path ⟨bump nd.counts s, newWeight cfg nd.w own own⟩)
  | path, c :: rest, s =>
    let nd := t.node path
    let own := estProb cfg nd s
    let childP :=
      match t.nodes (path ++ [c]) with
      | none => own
      | some child => mixProb cfg t (path ++ [c]) child rest s
    let mixed := nd.w * own + (1 - nd.w) * childP
    let deeper := updateAt cfg t (path ++ [c]) rest s
    (mixed,
      deeper.2.setNode path ⟨bump nd.counts s, newWeight cfg nd.w own childP⟩)

/-- Modelled from the spec: `ContextTree.trainOn(context, symbol)`
(§4.3): validates the symbol against the alphabet, then performs the
predictive/update pass.  The real code returns the logarithm of the
predictive probability; this embedding returns the exact rational
probability (its logarithm is reasoned about via `Real.log`). -/
def trainOn {σ : Type} [DecidableEq σ] (cfg : Config σ) (t : Tree σ)
    (context : List σ) (s : σ) : Except Err (ℚ × Tree σ) :=
  if s ∈ cfg.alphabet then
    Except.ok (updateAt cfg t (List.nil) (effCtx cfg context) s)
  else Except.error Err.invalidSymbol

/-- The deepest reached context node for a traversal (§4.3 sampling):
follow the reversed context from the root while a child exists, and
return the path of the last node reached. -/
def deepestPath {σ : Type} (t : Tree σ) : List σ → List σ → List σ
  | path, [] => path
  | path, c :: rest =>
    match t.nodes (path ++ [c]) with
    | none => path
    | some _ => deepestPath t (path ++ [c]) rest

/-- True when every alphabet symbol has raw observed count zero at the
deepest reached context node (the fully-untrained-context case of the
rejection-sampling rule). -/
def allZeroRaw {σ : Type} (cfg : Config σ) (t : Tree σ)
    (context : List σ) : Bool :=
  cfg.alphabet.all
    (fun a => (t.node (deepestPath t [] (effCtx cfg context))).counts a == 0)

/-- Modelled from the spec: the per-symbol sampling weight (§4.3).
With rejection sampling on and at least one raw observation at the
deepest reached node, symbols with zero raw count there get weight 0;
otherwise the unrestricted predictive probability is used. -/
def sampleWeight {σ : Type} (cfg : Config σ) (t : Tree σ)
    (context : List σ) (rejection : Bool) (s : σ) : ℚ :=
  if rejection && !allZeroRaw cfg t context then
    if (t.node (deepestPath t [] (effCtx cfg context))).counts s = 0 then 0
    else ctsPredict cfg t context s
  else ctsPredict cfg t context s

/-- Walk the cumulative distribution in alphabet order: return the first
symbol whose weight exceeds the remaining target mass. -/
def pickCumulative {σ : Type} : List σ → (σ → ℚ) → ℚ → Option σ
  | [], _, _ => none
  | a :: rest, f, target =>
    if target < f a then some a else pickCumulative rest f (target - f a)

/-- Modelled from the spec: `ContextTree.sample(context, rejection)`
(§4.3): build the cumulative distribution over the fixed alphabet order
and resolve a single uniform draw `u ∈ [0,1)` against it (the draw is
passed in explicitly; the code's RNG is external to the model). -/
def ctsSample {σ : Type} [DecidableEq σ] (cfg : Config σ) (t : Tree σ)
    (context : List σ) (rejection : Bool) (u : ℚ) : Option σ :=
  let f := sampleWeight cfg t context rejection
  pickCumulative cfg.alphabet f (u * (cfg.alphabet.map f).sum)

/-- Modelled from the spec: the `SequentialPredictor` wrapper (§4.4):
one ContextTree plus the rolling `SequenceContext` window
(most-recent-last, length ≤ D). -/
structure Predictor (σ : Type) where
  cfg : Config σ
  tree : Tree σ
  ctx : List σ

/-- SequenceContext append (§3): push the new symbol, dropping the
oldest symbols so that at most D remain. -/
def pushCtx {σ : Type} (cfg : Config σ) (ctx : List σ) (s : σ) : List σ :=
  let l := ctx ++ [s]
  l.drop (l.length - cfg.contextLength)

/-- Modelled from the spec: `SequentialPredictor.update(symbol)` (§4.4):
delegate to `trainOn`, then advance the context window.  Fails (with no
mutation: the error result carries no successor state) on a symbol
outside the alphabet. -/
def predUpdate {σ : Type} [DecidableEq σ] (p : Predictor σ) (s : σ) :
    Except Err (ℚ × Predictor σ) :=
  match trainOn p.cfg p.tree p.ctx s with
  | Except.error e => Except.error e
  | Except.ok (q, t) =>
      Except.ok (q, ⟨p.cfg, t, pushCtx p.cfg p.ctx s⟩)

/-- Modelled from the spec: `observe(symbol)` (§4.4): advance the
context window exactly as `update` does, with no tree training. -/
def predObserve {σ : Type} [DecidableEq σ] (p : Predictor σ) (s : σ) :
    Except Err (Predictor σ) :=
  if s ∈ p.cfg.alphabet then
    Except.ok ⟨p.cfg, p.tree, pushCtx p.cfg p.ctx s⟩
  else Except.error Err.invalidSymbol

/-- Modelled from the spec: `sample(rejectionSampling)` (§4.4):
delegate to the tree's sampler on the current window; mutates nothing
(its type carries no successor state). -/
def predSample {σ : Type} [DecidableEq σ] (p : Predictor σ)
    (rejection : Bool) (u : ℚ) : Option σ :=
  ctsSample p.cfg p.tree p.ctx rejection u

/-- Modelled from the spec: the `context` setter (§4.4, §7): validates
the snapshot's symbols, then installs (at most) its last D symbols as
the rolling window. -/
def setContext {σ : Type} [DecidableEq σ] (p : Predictor σ)
    (snapshot : List σ) : Except Err (Predictor σ) :=
  if ∀ a ∈ snapshot, a ∈ p.cfg.alphabet then
    Except.ok ⟨p.cfg, p.tree,
      snapshot.drop (snapshot.length - p.cfg.contextLength)⟩
  else Except.error Err.invalidSymbol

/-- One step of a sampling/observation excursion (notebook
`sample_sequence`): a `sample` call (with its uniform draw) or an
`observe` call.  A step that fails leaves the state as it was. -/
inductive ExcStep (σ : Type) where
  | sampleStep (rejection : Bool) (u : ℚ)
  | observeStep (s : σ)

/-- Apply one excursion step to the predictor state.  `sample` returns
a symbol and no state, so the state is unchanged; a failed `observe` is
absorbed (the error carries no successor state). -/
def applyStep {σ : Type} [DecidableEq σ] (p : Predictor σ) :
    ExcStep σ → Predictor σ
  | ExcStep.sampleStep _ _ => p
  | ExcStep.observeStep s =>
    match predObserve p s with
    | Except.ok q => q
    | Except.error _ => p

/-- A whole excursion: any sequence of sample/observe steps. -/
def excurse {σ : Type} [DecidableEq σ] (p : Predictor σ)
    (steps : List (ExcStep σ)) : Predictor σ :=
  steps.foldl applyStep p

/-- Modelled from the spec: eager constructor validation (§6, §7).
Resolves the prior argument and fails with `InvalidConfigurationError`
on an empty or duplicated alphabet, a negative context length, an
unknown prior token, or a non-positive fixed pseudo-count.  The switch
perturbation is fixed at 2% (spec §9 leaves its exact value open). -/
def mkConfig {σ : Type} [DecidableEq σ] (alphabet : List σ)
    (contextLength : Int) (prior : PriorArg) : Except Err (Config σ) :=
  if alphabet = [] then Except.error Err.invalidConfiguration
  else if ¬ alphabet.Nodup then Except.error Err.invalidConfiguration
  else if contextLength < 0 then Except.error Err.invalidConfiguration
  else
    match prior with
    | PriorArg.token tok =>
      if tok = "perks" then
        Except.ok ⟨alphabet, contextLength.toNat,
          PriorPolicy.pseudoCount PriorPolicy.perks alphabet.length, 1 / 50⟩
      else if tok = "laplace" then
        Except.ok ⟨alphabet, contextLength.toNat,
          PriorPolicy.pseudoCount PriorPolicy.laplace alphabet.length, 1 / 50⟩
      else if tok = "jeffreys" then
        Except.ok ⟨alphabet, contextLength.toNat,
          PriorPolicy.pseudoCount PriorPolicy.jeffreys alphabet.length, 1 / 50⟩
      else Except.error Err.invalidConfiguration
    | PriorArg.value v =>
      if 0 < v then
        Except.ok ⟨alphabet, contextLength.toNat,
          PriorPolicy.pseudoCount (PriorPolicy.fixed v) alphabet.length, 1 / 50⟩
      else Except.error Err.invalidConfiguration

/-- A freshly constructed predictor for a validated configuration:
untrained tree, empty context window. -/
def mkPredictor {σ : Type} [DecidableEq σ] (cfg : Config σ) : Predictor σ :=
  ⟨cfg, Tree.init σ, []⟩

/-- Feed a symbol sequence through `update`, collecting the returned
predictive probabilities (the values whose logarithms the real `update`
returns); a failed update contributes nothing and leaves the state
unchanged. -/
def runSeq {σ : Type} [DecidableEq σ] : Predictor σ → List σ → List ℚ
  | _, [] => []
  | p, x :: xs =>
    match predUpdate p x with
    | Except.ok (q, p2) => q :: runSeq p2 xs
    | Except.error _ => runSeq p xs

/-- The tree-state invariant every reachable tree satisfies: all
switching weights lie in [0,1]. -/
def TreeInv {σ : Type} (t : Tree σ) : Prop :=
  ∀ p nd, t.nodes p = some nd → 0 ≤ nd.w ∧ nd.w ≤ 1

/-- Modelled from the spec and the tutorial notebook: the
`ContextualSequenceModel` constructed *without* an alphabet (notebook
cell `model.ContextualSequenceModel(context_length=8)`), whose
underlying `CTS` model exposes an `alphabet` attribute grown online.
`update` validates nothing: the symbol is first added to the alphabet
(if new, appended in arrival order), then the tree is trained with the
current alphabet as the estimator support. -/
structure AdaptiveModel (σ : Type) where
  alphabet : List σ
  contextLength : Nat
  alpha : ℚ
  gamma : ℚ
  tree : Tree σ
  ctx : List σ

/-- A fresh adaptive model: empty alphabet, untrained tree. -/
def AdaptiveModel.init (σ : Type) [DecidableEq σ] (contextLength : Nat) :
    AdaptiveModel σ :=
  ⟨[], contextLength, 1, 1 / 50, Tree.init σ, []⟩

/-- Adaptive `update`: total (never raises `InvalidSymbolError`); grows
the alphabet with the observed symbol, then trains as usual. -/
def AdaptiveModel.update {σ : Type} [DecidableEq σ] (m : AdaptiveModel σ)
    (s : σ) : ℚ × AdaptiveModel σ :=
  let alphabet := if s ∈ m.alphabet then m.alphabet else m.alphabet ++ [s]
  let cfg : Config σ := ⟨alphabet, m.contextLength, m.alpha, m.gamma⟩
  let r := updateAt cfg m.tree [] (effCtx cfg m.ctx) s
  (r.1, ⟨alphabet, m.contextLength, m.alpha, m.gamma, r.2,
    pushCtx cfg m.ctx s⟩)

/-- Train an adaptive model on a whole sequence. -/
def AdaptiveModel.trainAll {σ : Type} [DecidableEq σ] :
    AdaptiveModel σ → List σ → AdaptiveModel σ
  | m, [] => m
  | m, x :: xs => AdaptiveModel.trainAll (m.update x).2 xs

/-- A small concrete configuration over symbols 0 and 1 (context length
2, Jeffreys pseudo-count 1/2) used to instantiate the general theorems. -/
def natCfg : Config Nat := ⟨[0, 1], 2, 1 / 2, 1 / 50⟩

/-- The configuration of the spec's concrete D = 0 scenario (§8):
alphabet {a,b}, maximum context length 0, Perks prior α = 1/2. -/
def c4cfg : Config Char := ⟨['a', 'b'], 0, 1 / 2, 1 / 50⟩

/-! ### Helper lemmas -/

theorem sum_map_div {σ : Type} (l : List σ) (f : σ → ℚ) (c : ℚ) :
    (l.map (fun x => f x / c)).sum = (l.map f).sum / c := by
  induction l with
  | nil => simp
  | cons a t ih => simp [ih, div_add_div_same]

theorem sum_map_linear {σ : Type} (l : List σ) (f g : σ → ℚ) (a b : ℚ) :
    (l.map (fun x => a * f x + b * g x)).sum =
      a * (l.map f).sum + b * (l.map g).sum := by
  induction l with
  | nil => simp
  | cons x t ih => simp [ih]; ring

theorem sum_counts_alpha {σ : Type} (cfg : Config σ) (nd : NodeData σ) :
    (cfg.alphabet.map (fun s => (nd.counts s : ℚ) + cfg.alpha)).sum =
      totalCount cfg nd + cfg.alphabet.length * cfg.alpha := by
  unfold totalCount
  induction cfg.alphabet with
  | nil => simp
  | cons x t ih => simp [ih]; ring

theorem denom_pos {σ : Type} {cfg : Config σ} (hA : cfg.alphabet ≠ [])
    (hα : 0 < cfg.alpha) (nd : NodeData σ) :
    0 < totalCount cfg nd + cfg.alphabet.length * cfg.alpha := by
  have h1 : (0:ℚ) ≤ totalCount cfg nd := by unfold totalCount; positivity
  have h2 : (1:ℚ) ≤ cfg.alphabet.length := by
    have := List.length_pos.mpr hA
    exact_mod_cast this
  nlinarith

theorem estProb_pos {σ : Type} {cfg : Config σ} (hA : cfg.alphabet ≠ [])
    (hα : 0 < cfg.alpha) (nd : NodeData σ) (s : σ) :
    0 < estProb cfg nd s := by
  unfold estProb
  have hd := denom_pos hA hα nd
  have hn : (0:ℚ) < nd.counts s + cfg.alpha := by positivity
  exact div_pos hn hd

theorem count_le_total {σ : Type} (cfg : Config σ) (nd : NodeData σ)
    {s : σ} (hs : s ∈ cfg.alphabet) :
    (nd.counts s : ℚ) ≤ totalCount cfg nd := by
  unfold totalCount
  have hmem : nd.counts s ∈ cfg.alphabet.map nd.counts :=
    List.mem_map_of_mem nd.counts hs
  have := List.single_le_sum (l := cfg.alphabet.map nd.counts)
    (fun _ _ => Nat.zero_le _) _ hmem
  exact_mod_cast this

theorem estProb_le_one {σ : Type} {cfg : Config σ} (hA : cfg.alphabet ≠ [])
    (hα : 0 < cfg.alpha) (nd : NodeData σ) {s : σ} (hs : s ∈ cfg.alphabet) :
    estProb cfg nd s ≤ 1 := by
  unfold estProb
  have hd := denom_pos hA hα nd
  rw [div_le_one hd]
  have hc := count_le_total cfg nd hs
  have h2 : (1:ℚ) ≤ cfg.alphabet.length := by
    have := List.length_pos.mpr hA
    exact_mod_cast this
  nlinarith

theorem estProb_sum_one {σ : Type} {cfg : Config σ} (hA : cfg.alphabet ≠ [])
    (hα : 0 < cfg.alpha) (nd : NodeData σ) :
    (cfg.alphabet.map (estProb cfg nd)).sum = 1 := by
  unfold estProb
  rw [show (fun s => ((nd.counts s : ℚ) + cfg.alpha) /
        (totalCount cfg nd + cfg.alphabet.length * cfg.alpha)) =
      (fun s => (fun x => ((nd.counts x : ℚ) + cfg.alpha)) s /
        (totalCount cfg nd + cfg.alphabet.length * cfg.alpha)) from rfl,
    sum_map_div, sum_counts_alpha]
  exact div_self (ne_of_gt (denom_pos hA hα nd))

theorem mixProb_sum_one {σ : Type} {cfg : Config σ} (hA : cfg.alphabet ≠ [])
    (hα : 0 < cfg.alpha) (t : Tree σ) :
    ∀ (ctxRev : List σ) (path : List σ) (nd : NodeData σ),
      (cfg.alphabet.map (mixProb cfg t path nd ctxRev)).sum = 1 := by
  intro ctxRev
  induction ctxRev with
  | nil => intro path nd; simpa [mixProb] using estProb_sum_one hA hα nd
  | cons c rest ih =>
    intro path nd
    cases h : t.nodes (path ++ [c]) with
    | none => simpa [mixProb, h] using estProb_sum_one hA hα nd
    | some child =>
      have : (cfg.alphabet.map (mixProb cfg t path nd (c :: rest))).sum =
          (cfg.alphabet.map (fun s => nd.w * estProb cfg nd s +
            (1 - nd.w) * mixProb cfg t (path ++ [c]) child rest s)).sum := by
        congr 1
        apply List.map_congr_left
        intro a _
        simp [mixProb, h]
      rw [this, sum_map_linear, estProb_sum_one hA hα nd, ih]
      ring

theorem node_w_mem {σ : Type} {t : Tree σ} (hinv : TreeInv t) (p : List σ) :
    0 ≤ (t.node p).w ∧ (t.node p).w ≤ 1 := by
  unfold Tree.node
  cases h : t.nodes p with
  | none => simp [NodeData.fresh]; norm_num
  | some nd => simpa using hinv p nd h

theorem mix_pos {w own child : ℚ} (hw0 : 0 ≤ w) (hw1 : w ≤ 1)
    (ho : 0 < own) (hc : 0 < child) : 0 < w * own + (1 - w) * child := by
  rcases eq_or_lt_of_le hw0 with h | h
  · rw [← h]; simpa using hc
  · have h1 : 0 < w * own := mul_pos h ho
    have h2 : 0 ≤ (1 - w) * child := mul_nonneg (by linarith) hc.le
    linarith

theorem mix_le_one {w own child : ℚ} (hw0 : 0 ≤ w) (hw1 : w ≤ 1)
    (ho : own ≤ 1) (hc : child ≤ 1) : w * own + (1 - w) * child ≤ 1 := by
  nlinarith

theorem mixProb_pos {σ : Type} {cfg : Config σ} (hA : cfg.alphabet ≠ [])
    (hα : 0 < cfg.alpha) {t : Tree σ} (hinv : TreeInv t) :
    ∀ (ctxRev path : List σ) (nd : NodeData σ),
      0 ≤ nd.w → nd.w ≤ 1 → ∀ s, 0 < mixProb cfg t path nd ctxRev s := by
  intro ctxRev
  induction ctxRev with
  | nil => intro path nd _ _ s; simpa [mixProb] using estProb_pos hA hα nd s
  | cons c rest ih =>
    intro path nd hw0 hw1 s
    cases h : t.nodes (path ++ [c]) with
    | none => simpa [mixProb, h] using estProb_pos hA hα nd s
    | some child =>
      have hcw := hinv (path ++ [c]) child h
      have hchild := ih (path ++ [c]) child hcw.1 hcw.2 s
      have hown := estProb_pos hA hα nd s
      simpa [mixProb, h] using mix_pos hw0 hw1 hown hchild

theorem mixProb_le_one {σ : Type} {cfg : Config σ} (hA : cfg.alphabet ≠ [])
    (hα : 0 < cfg.alpha) {t : Tree σ} (hinv : TreeInv t) :
    ∀ (ctxRev path : List σ) (nd : NodeData σ),
      0 ≤ nd.w → nd.w ≤ 1 → ∀ s, s ∈ cfg.alphabet →
        mixProb cfg t path nd ctxRev s ≤ 1 := by
  intro ctxRev
  induction ctxRev with
  | nil =>
    intro path nd _ _ s hs
    simpa [mixProb] using estProb_le_one hA hα nd hs
  | cons c rest ih =>
    intro path nd hw0 hw1 s hs
    cases h : t.nodes (path ++ [c]) with
    | none => simpa [mixProb, h] using estProb_le_one hA hα nd hs
    | some child =>
      have hcw := hinv (path ++ [c]) child h
      have hchild := ih (path ++ [c]) child hcw.1 hcw.2 s hs
      have hown := estProb_le_one hA hα nd hs
      simpa [mixProb, h] using mix_le_one hw0 hw1 hown hchild

theorem newWeight_mem {σ : Type} {cfg : Config σ} (hg0 : 0 ≤ cfg.gamma)
    (hg1 : cfg.gamma ≤ 1) {w own child : ℚ} (hw0 : 0 ≤ w) (hw1 : w ≤ 1)
    (ho : 0 < own) (hc : 0 < child) :
    0 ≤ newWeight cfg w own child ∧ newWeight cfg w own child ≤ 1 := by
  unfold newWeight
  have hz : 0 < w * own + (1 - w) * child := mix_pos hw0 hw1 ho hc
  have ha : (0:ℚ) ≤ w * own := mul_nonneg hw0 ho.le
  have hb : (0:ℚ) ≤ (1 - w) * child := mul_nonneg (by linarith) hc.le
  constructor
  · apply div_nonneg _ hz.le
    have h1 : (0:ℚ) ≤ (1 - cfg.gamma) * (w * own) :=
      mul_nonneg (by linarith) ha
    have h2 : (0:ℚ) ≤ cfg.gamma * ((1 - w) * child) := mul_nonneg hg0 hb
    linarith
  · rw [div_le_one hz]
    nlinarith

theorem setNode_inv {σ : Type} [DecidableEq σ] {t : Tree σ}
    (hinv : TreeInv t) (p : List σ) {nd : NodeData σ}
    (h0 : 0 ≤ nd.w) (h1 : nd.w ≤ 1) : TreeInv (t.setNode p nd) := by
  intro q m hq
  simp only [Tree.setNode] at hq
  by_cases hqp : q = p
  · simp [hqp] at hq; rw [← hq]; exact ⟨h0, h1⟩
  · simp [hqp] at hq; exact hinv q m hq

theorem updateAt_inv {σ : Type} [DecidableEq σ] {cfg : Config σ}
    (hA : cfg.alphabet ≠ []) (hα : 0 < cfg.alpha) (hg0 : 0 ≤ cfg.gamma)
    (hg1 : cfg.gamma ≤ 1) {t : Tree σ} (hinv : TreeInv t) :
    ∀ (ctxRev path : List σ) (s : σ),
      TreeInv (updateAt cfg t path ctxRev s).2 := by
  intro ctxRev
  induction ctxRev with
  | nil =>
    intro path s
    have hw := node_w_mem hinv path
    have hown := estProb_pos hA hα (t.node path) s
    have := newWeight_mem hg0 hg1 hw.1 hw.2 hown hown
    exact setNode_inv hinv path this.1 this.2
  | cons c rest ih =>
    intro path s
    have hw := node_w_mem hinv path
    have hown := estProb_pos hA hα (t.node path) s
    have hchild : 0 <
        (match t.nodes (path ++ [c]) with
         | none => estProb cfg (t.node path) s
         | some child => mixProb cfg t (path ++ [c]) child rest s) := by
      cases h : t.nodes (path ++ [c]) with
      | none => simpa using hown
      | some child =>
        have hcw := hinv (path ++ [c]) child h
        simpa using mixProb_pos hA hα hinv rest (path ++ [c]) child
          hcw.1 hcw.2 s
    have hnw := newWeight_mem hg0 hg1 hw.1 hw.2 hown hchild
    exact setNode_inv (ih (path ++ [c]) s) path hnw.1 hnw.2

theorem updateAt_fst {σ : Type} [DecidableEq σ] (cfg : Config σ)
    (t : Tree σ) :
    ∀ (ctxRev path : List σ) (s : σ),
      (updateAt cfg t path ctxRev s).1 =
        mixProb cfg t path (t.node path) ctxRev s := by
  intro ctxRev
  induction ctxRev with
  | nil => intro path s; rfl
  | cons c rest ih =>
    intro path s
    cases h : t.nodes (path ++ [c]) with
    | none => simp [updateAt, mixProb, h]; ring
    | some child => simp [updateAt, mixProb, h]

theorem TreeInv_init {σ : Type} [DecidableEq σ] : TreeInv (Tree.init σ) := by
  intro p nd h
  simp only [Tree.init] at h
  by_cases hp : p = []
  · simp [hp] at h
    rw [← h]
    constructor <;> norm_num [NodeData.fresh]
  · simp [hp] at h

theorem natCfg_valid : natCfg.Valid := by
  refine ⟨by simp [natCfg], by simp [natCfg], by norm_num [natCfg],
    by norm_num [natCfg], by norm_num [natCfg]⟩

/-! ### Claim theorems -/

/-- C1: at every node, for every requested symbol and active context
window, the reported probability is
`mixedProbability = w * ownProbability + (1 - w) * childProbability`,
where `childProbability` is the child's recursive mixed probability for
the next-deeper context symbol when the recursion continues and that
child exists, and `ownProbability` otherwise. -/
theorem mixed_probability_recursion {σ : Type} (cfg : Config σ)
    (t : Tree σ) (path : List σ) (nd : NodeData σ) (ctxRev : List σ)
    (s : σ) :
    mixProb cfg t path nd ctxRev s =
      nd.w * ownProbability cfg nd s +
        (1 - nd.w) * childProbability cfg t path nd ctxRev s := by
  cases ctxRev with
  | nil => simp only [mixProb, childProbability, ownProbability]; ring
  | cons c rest =>
    cases h : t.nodes (path ++ [c]) with
    | none =>
      simp only [mixProb, childProbability, ownProbability, h]
      ring
    | some child =>
      simp only [mixProb, childProbability, ownProbability, h]

/-- C1 witness: the recursion equation evaluated on the untrained tree
over the alphabet {0,1} at context symbol 0. -/
theorem mixed_probability_recursion_witness :
    mixProb natCfg (Tree.init Nat) [] (NodeData.fresh Nat) [0] 0 =
      (NodeData.fresh Nat).w *
          ownProbability natCfg (NodeData.fresh Nat) 0 +
        (1 - (NodeData.fresh Nat).w) *
          childProbability natCfg (Tree.init Nat) [] (NodeData.fresh Nat)
            [0] 0 :=
  mixed_probability_recursion natCfg (Tree.init Nat) [] (NodeData.fresh Nat)
    [0] 0

/-- C2: for every valid configuration (hence every prior policy), every
tree state and every context, the predictive distribution sums to
exactly 1 over the alphabet (exact rational arithmetic subsumes the
floating tolerance); on the untrained tree every predictive probability
is the pure-prior LocalEstimator prediction. -/
theorem predictive_distribution_sums_to_one {σ : Type} [DecidableEq σ]
    (cfg : Config σ) (h : cfg.Valid) (t : Tree σ) (context : List σ) :
    (cfg.alphabet.map (ctsPredict cfg t context)).sum = 1 ∧
      ∀ s, ctsPredict cfg (Tree.init σ) context s =
        estProb cfg (NodeData.fresh σ) s := by
  constructor
  · have := mixProb_sum_one h.1 h.2.2.1 t (effCtx cfg context) []
      (t.node [])
    simpa [ctsPredict] using this
  · intro s
    have hroot : (Tree.init σ).node [] = NodeData.fresh σ := by
      simp [Tree.node, Tree.init]
    unfold ctsPredict
    rw [hroot]
    cases hctx : effCtx cfg context with
    | nil => simp [mixProb]
    | cons c rest =>
      have hnone : (Tree.init σ).nodes [c] = none := by
        simp [Tree.init]
      simp [mixProb, hnone]

/-- C2 witness: the sum evaluated for the concrete {0,1} configuration
on the untrained tree with context [0]. -/
theorem predictive_distribution_sums_to_one_witness :
    natCfg.Valid ∧
      (natCfg.alphabet.map (ctsPredict natCfg (Tree.init Nat) [0])).sum = 1 :=
  ⟨natCfg_valid,
    (predictive_distribution_sums_to_one natCfg natCfg_valid
      (Tree.init Nat) [0]).1⟩

/-- C3: for every well-formed predictor state and valid symbol, `update`
succeeds and returns the predictive probability computed from the tree
state before any mutation of the call (equal to `ctsPredict` on the old
state); that probability lies in (0,1], so the log-probability the real
code returns is ≤ 0. -/
theorem update_returns_premutation_logprob {σ : Type} [DecidableEq σ]
    (p : Predictor σ) (h : p.cfg.Valid) (hinv : TreeInv p.tree) (s : σ)
    (hs : s ∈ p.cfg.alphabet) :
    ∃ q p2, predUpdate p s = Except.ok (q, p2) ∧
      q = ctsPredict p.cfg p.tree p.ctx s ∧ 0 < q ∧ q ≤ 1 ∧
      Real.log (q : ℝ) ≤ 0 := by
  have hw := node_w_mem hinv ([] : List σ)
  have hq : (updateAt p.cfg p.tree [] (effCtx p.cfg p.ctx) s).1 =
      ctsPredict p.cfg p.tree p.ctx s := by
    rw [updateAt_fst]; rfl
  have hpos : 0 < ctsPredict p.cfg p.tree p.ctx s :=
    mixProb_pos h.1 h.2.2.1 hinv _ _ _ hw.1 hw.2 s
  have hle : ctsPredict p.cfg p.tree p.ctx s ≤ 1 :=
    mixProb_le_one h.1 h.2.2.1 hinv _ _ _ hw.1 hw.2 s hs
  refine ⟨(updateAt p.cfg p.tree [] (effCtx p.cfg p.ctx) s).1,
    ⟨p.cfg, (updateAt p.cfg p.tree [] (effCtx p.cfg p.ctx) s).2,
      pushCtx p.cfg p.ctx s⟩, ?_, hq, ?_, ?_, ?_⟩
  · simp [predUpdate, trainOn, hs]
  · rw [hq]; exact hpos
  · rw [hq]; exact hle
  · rw [hq]
    apply Real.log_nonpos
    · exact_mod_cast hpos.le
    · exact_mod_cast hle

/-- C3 witness: the first update of symbol 0 on the fresh {0,1} model. -/
theorem update_returns_premutation_logprob_witness :
    natCfg.Valid ∧ 0 ∈ natCfg.alphabet ∧
      (∃ q p2, predUpdate (mkPredictor natCfg) 0 = Except.ok (q, p2) ∧
        q = ctsPredict (mkPredictor natCfg).cfg (mkPredictor natCfg).tree
              (mkPredictor natCfg).ctx 0 ∧
        0 < q ∧ q ≤ 1 ∧ Real.log (q : ℝ) ≤ 0) :=
  ⟨natCfg_valid, by simp [natCfg],
    update_returns_premutation_logprob (mkPredictor natCfg) natCfg_valid
      TreeInv_init 0 (by simp [natCfg, mkPredictor])⟩

/-- C4 counterexample: in the spec's concrete scenario (alphabet {a,b},
D = 0, Perks prior, feeding "aab") the third update returns exactly
P(b) = (0 + 1/2) / (2 + 2·(1/2)) = 1/6 = 0.16666..., which differs from
the claimed 0.1667 by 1/30000 ≈ 3.3·10⁻⁵ — more than the claimed 10⁻⁶
tolerance. -/
theorem d0_scenario_counterexample :
    ¬ |(runSeq (mkPredictor c4cfg) ['a', 'a', 'b']).getD 2 0 -
        1667 / 10000| ≤ 1 / 1000000 := by
  have hrun : runSeq (mkPredictor c4cfg) ['a', 'a', 'b'] =
      [1 / 2, 3 / 4, 1 / 6] := by
    simp [runSeq, predUpdate, trainOn, updateAt, effCtx, estProb, totalCount,
      Tree.node, Tree.setNode, Tree.init, NodeData.fresh, bump, newWeight,
      mkPredictor, pushCtx, c4cfg]
    norm_num
  rw [hrun]
  norm_num [abs_le]

/-- C4 (amended): with D = 0 the predictive distribution is exactly the
closed-form LocalEstimator formula with no recursion, and the "aab"
scenario returns exactly 1/2, 3/4 and 1/6 (= 0.166666..., i.e. 0.1667
only to within 5·10⁻⁵; the first two values are exact). -/
theorem d0_closed_form {σ : Type} [DecidableEq σ] (cfg : Config σ)
    (hD : cfg.contextLength = 0) (t : Tree σ) (context : List σ) (s : σ) :
    ctsPredict cfg t context s = estProb cfg (t.node []) s ∧
      runSeq (mkPredictor c4cfg) ['a', 'a', 'b'] = [1 / 2, 3 / 4, 1 / 6] := by
  constructor
  · simp [ctsPredict, effCtx, hD, mixProb]
  · simp [runSeq, predUpdate, trainOn, updateAt, effCtx, estProb, totalCount,
      Tree.node, Tree.setNode, Tree.init, NodeData.fresh, bump, newWeight,
      mkPredictor, pushCtx, c4cfg]
    norm_num

/-- C4 witness: the closed form evaluated at the {a,b} configuration
itself on the untrained tree. -/
theorem d0_closed_form_witness :
    c4cfg.contextLength = 0 ∧
      (ctsPredict c4cfg (Tree.init Char) ['a'] 'b' =
          estProb c4cfg ((Tree.init Char).node []) 'b' ∧
        runSeq (mkPredictor c4cfg) ['a', 'a', 'b'] =
          [1 / 2, 3 / 4, 1 / 6]) :=
  ⟨rfl, d0_closed_form c4cfg rfl (Tree.init Char) ['a'] 'b'⟩

/-- C7: `update` with a symbol outside the configured alphabet fails
with `InvalidSymbolError`; the error result carries no successor state,
so every statistic (counts, weights, tree structure, context window) of
the caller's model is exactly as before - there is no partially mutated
state. -/
theorem update_invalid_symbol_no_mutation {σ : Type} [DecidableEq σ]
    (p : Predictor σ) (s : σ) (hs : s ∉ p.cfg.alphabet) :
    predUpdate p s = Except.error Err.invalidSymbol ∧
      ∀ q p2, predUpdate p s ≠ Except.ok (q, p2) := by
  have h : predUpdate p s = Except.error Err.invalidSymbol := by
    simp [predUpdate, trainOn, hs]
  exact ⟨h, fun q p2 hok => by rw [h] at hok; exact Except.noConfusion hok⟩

/-- C7 witness: updating the {0,1} model with the out-of-alphabet
symbol 5. -/
theorem update_invalid_symbol_no_mutation_witness :
    5 ∉ natCfg.alphabet ∧
      predUpdate (mkPredictor natCfg) 5 = Except.error Err.invalidSymbol :=
  ⟨by simp [natCfg], (update_invalid_symbol_no_mutation (mkPredictor natCfg) 5
    (by simp [natCfg, mkPredictor])).1⟩

/-- C8: two freshly constructed predictors with the same resolved
configuration (same ordered alphabet, context length and prior) fed the
same symbol sequence through `update` return identical sequences of
predictive (log-)probabilities. -/
theorem fresh_models_deterministic {σ : Type} [DecidableEq σ]
    (cfg : Config σ) (p q : Predictor σ) (hp : p = mkPredictor cfg)
    (hq : q = mkPredictor cfg) (xs : List σ) :
    runSeq p xs = runSeq q xs := by
  rw [hp, hq]

/-- C8 witness: two fresh {0,1} models on the sequence [0,1,0]. -/
theorem fresh_models_deterministic_witness :
    mkPredictor natCfg = mkPredictor natCfg ∧
      runSeq (mkPredictor natCfg) [0, 1, 0] =
        runSeq (mkPredictor natCfg) [0, 1, 0] :=
  ⟨rfl, fresh_models_deterministic natCfg (mkPredictor natCfg)
    (mkPredictor natCfg) rfl rfl [0, 1, 0]⟩

theorem applyStep_cfg {σ : Type} [DecidableEq σ] (p : Predictor σ)
    (st : ExcStep σ) :
    (applyStep p st).cfg = p.cfg ∧ (applyStep p st).tree = p.tree := by
  cases st with
  | sampleStep r u => exact ⟨rfl, rfl⟩
  | observeStep s =>
    by_cases h : s ∈ p.cfg.alphabet <;> simp [applyStep, predObserve, h]

theorem excurse_cfg {σ : Type} [DecidableEq σ] :
    ∀ (steps : List (ExcStep σ)) (p : Predictor σ),
      (excurse p steps).cfg = p.cfg ∧ (excurse p steps).tree = p.tree := by
  intro steps
  induction steps with
  | nil => intro p; exact ⟨rfl, rfl⟩
  | cons st rest ih =>
    intro p
    have h1 := applyStep_cfg p st
    have h2 := ih (applyStep p st)
    simp only [excurse, List.foldl_cons] at *
    exact ⟨h2.1.trans h1.1, h2.2.trans h1.2⟩

/-- C5: `observe` and `sample` never touch any tree statistic; after an
arbitrary excursion of sample/observe steps, restoring the saved
context snapshot yields a state from which every subsequent `update`
(and `sample`) returns exactly what it would have returned without the
excursion - the restored predictor *is* the original one. -/
theorem excursion_leaves_model_intact {σ : Type} [DecidableEq σ]
    (p : Predictor σ) (steps : List (ExcStep σ))
    (hctx : ∀ a ∈ p.ctx, a ∈ p.cfg.alphabet)
    (hlen : p.ctx.length ≤ p.cfg.contextLength) :
    setContext (excurse p steps) p.ctx = Except.ok p ∧
      ∀ q, setContext (excurse p steps) p.ctx = Except.ok q →
        (∀ s, predUpdate q s = predUpdate p s) ∧
        ∀ rej u, predSample q rej u = predSample p rej u := by
  have hc := excurse_cfg steps p
  have hok : setContext (excurse p steps) p.ctx = Except.ok p := by
    have hdrop : p.ctx.drop (p.ctx.length - (excurse p steps).cfg.contextLength)
        = p.ctx := by
      rw [hc.1, Nat.sub_eq_zero_of_le hlen, List.drop_zero]
    simp only [setContext, hc.1, hc.2]
    rw [if_pos hctx]
    rw [hc.1] at hdrop
    rw [hdrop]
  refine ⟨hok, fun q hq => ?_⟩
  rw [hok] at hq
  have : q = p := by injection hq with h; exact h.symm
  rw [this]
  exact ⟨fun _ => rfl, fun _ _ => rfl⟩

/-- C5 witness: an excursion of one observe and one sample on the fresh
{0,1} model, restored to the (empty) saved context. -/
theorem excursion_leaves_model_intact_witness :
    (∀ a ∈ (mkPredictor natCfg).ctx, a ∈ (mkPredictor natCfg).cfg.alphabet) ∧
      setContext
        (excurse (mkPredictor natCfg)
          [ExcStep.observeStep 0, ExcStep.sampleStep true (1 / 3)])
        (mkPredictor natCfg).ctx = Except.ok (mkPredictor natCfg) :=
  ⟨by simp [mkPredictor],
    (excursion_leaves_model_intact (mkPredictor natCfg)
      [ExcStep.observeStep 0, ExcStep.sampleStep true (1 / 3)]
      (by simp [mkPredictor]) (by simp [mkPredictor, natCfg])).1⟩

/-- C9: construction validates eagerly: `mkConfig` fails with
`InvalidConfigurationError` (and then no operation can run, since no
configuration is produced) exactly when the alphabet is empty or has
duplicates, the context length is negative, the prior token is unknown,
or a fixed pseudo-count is non-positive. -/
theorem construction_validates_eagerly {σ : Type} [DecidableEq σ]
    (alphabet : List σ) (contextLength : Int) (prior : PriorArg) :
    mkConfig alphabet contextLength prior =
        Except.error Err.invalidConfiguration ↔
      (alphabet = [] ∨ ¬ alphabet.Nodup ∨ contextLength < 0 ∨
        (∃ tok, prior = PriorArg.token tok ∧ tok ≠ "perks" ∧
          tok ≠ "laplace" ∧ tok ≠ "jeffreys") ∨
        (∃ v, prior = PriorArg.value v ∧ ¬ 0 < v)) := by
  by_cases h1 : alphabet = []
  · simp [mkConfig, h1]
  by_cases h2 : alphabet.Nodup
  all_goals (try (simp [mkConfig, h1, h2]; done))
  by_cases h3 : contextLength < 0
  · simp [mkConfig, h1, h2, h3]
  cases prior with
  | token tok =>
    by_cases h4 : tok = "perks"
    · simp [mkConfig, h1, h2, h3, h4]
    by_cases h5 : tok = "laplace"
    · simp [mkConfig, h1, h2, h3, h4, h5]
    by_cases h6 : tok = "jeffreys"
    · simp [mkConfig, h1, h2, h3, h4, h5, h6]
    · simp [mkConfig, h1, h2, h3, h4, h5, h6]
  | value v =>
    by_cases h4 : 0 < v
    · simp [mkConfig, h1, h2, h3, h4]
    · simp [mkConfig, h1, h2, h3, h4]
      linarith [not_lt.mp h4]

/-- C9 witness: the empty alphabet is rejected at construction. -/
theorem construction_validates_eagerly_witness :
    mkConfig ([] : List Nat) 0 (PriorArg.token "perks") =
      Except.error Err.invalidConfiguration :=
  (construction_validates_eagerly ([] : List Nat) 0
    (PriorArg.token "perks")).mpr (Or.inl rfl)

theorem adaptive_update_alphabet {σ : Type} [DecidableEq σ]
    (m : AdaptiveModel σ) (s : σ) :
    (m.update s).2.alphabet =
      if s ∈ m.alphabet then m.alphabet else m.alphabet ++ [s] := rfl

theorem trainAll_alphabet {σ : Type} [DecidableEq σ] :
    ∀ (xs : List σ) (m : AdaptiveModel σ), m.alphabet.Nodup →
      (m.trainAll xs).alphabet.toFinset =
          m.alphabet.toFinset ∪ xs.toFinset ∧
        (m.trainAll xs).alphabet.Nodup := by
  intro xs
  induction xs with
  | nil => intro m hm; simp [AdaptiveModel.trainAll, hm]
  | cons x rest ih =>
    intro m hm
    have halph := adaptive_update_alphabet m x
    have hnodup : (m.update x).2.alphabet.Nodup := by
      rw [halph]
      by_cases hx : x ∈ m.alphabet
      · simpa [hx] using hm
      · simp [hx, List.nodup_append, hm]
    have hfin : (m.update x).2.alphabet.toFinset =
        insert x m.alphabet.toFinset := by
      rw [halph]
      by_cases hx : x ∈ m.alphabet
      · simp [hx]
      · simp [hx]
        ext a
        simp [or_comm]
    have := ih (m.update x).2 hnodup
    refine ⟨?_, this.2⟩
    show (AdaptiveModel.trainAll (m.update x).2 rest).alphabet.toFinset = _
    rw [this.1, hfin]
    ext a
    simp [or_comm, or_assoc]

/-- C10: a model constructed without an alphabet (the notebook's
`ContextualSequenceModel(context_length=8)` mode) accepts every symbol
in `update` - the adaptive update is total, raising no
`InvalidSymbolError` - and after training its `alphabet` attribute
contains exactly the set of symbols observed so far (grown online,
duplicate-free). -/
theorem adaptive_alphabet_grows_online {σ : Type} [DecidableEq σ]
    (contextLength : Nat) (xs : List σ) :
    ((AdaptiveModel.init σ contextLength).trainAll xs).alphabet.toFinset =
        xs.toFinset ∧
      ((AdaptiveModel.init σ contextLength).trainAll xs).alphabet.Nodup := by
  have h := trainAll_alphabet xs (AdaptiveModel.init σ contextLength)
    (by simp [AdaptiveModel.init])
  refine ⟨?_, h.2⟩
  rw [h.1]
  simp [AdaptiveModel.init]

/-- C10 witness: training the alphabet-free model on [0,1,0] grows the
alphabet to exactly {0,1}. -/
theorem adaptive_alphabet_grows_online_witness :
    ((AdaptiveModel.init Nat 2).trainAll [0, 1, 0]).alphabet.toFinset =
      ([0, 1, 0] : List Nat).toFinset :=
  (adaptive_alphabet_grows_online 2 [0, 1, 0]).1

theorem ctsPredict_pos {σ : Type} [DecidableEq σ] {cfg : Config σ}
    (h : cfg.Valid) {t : Tree σ} (hinv : TreeInv t) (context : List σ)
    (s : σ) : 0 < ctsPredict cfg t context s := by
  have hw := node_w_mem hinv ([] : List σ)
  exact mixProb_pos h.1 h.2.2.1 hinv _ _ _ hw.1 hw.2 s

theorem sampleWeight_nonneg {σ : Type} [DecidableEq σ] {cfg : Config σ}
    (h : cfg.Valid) {t : Tree σ} (hinv : TreeInv t) (context : List σ)
    (rejection : Bool) (s : σ) :
    0 ≤ sampleWeight cfg t context rejection s := by
  unfold sampleWeight
  split_ifs with h1 h2
  · norm_num
  · exact (ctsPredict_pos h hinv context s).le
  · exact (ctsPredict_pos h hinv context s).le

theorem sampleWeight_false_eq {σ : Type} [DecidableEq σ] (cfg : Config σ)
    (t : Tree σ) (context : List σ) :
    sampleWeight cfg t context false = ctsPredict cfg t context :=
  funext fun s => by simp [sampleWeight]

theorem sampleWeight_allZero {σ : Type} [DecidableEq σ] (cfg : Config σ)
    (t : Tree σ) (context : List σ)
    (hz : allZeroRaw cfg t context = true) :
    sampleWeight cfg t context true = sampleWeight cfg t context false :=
  funext fun s => by simp [sampleWeight, hz]

theorem ctsPredict_sum_one {σ : Type} [DecidableEq σ] {cfg : Config σ}
    (h : cfg.Valid) (t : Tree σ) (context : List σ) :
    (cfg.alphabet.map (ctsPredict cfg t context)).sum = 1 := by
  simpa [ctsPredict] using
    mixProb_sum_one h.1 h.2.2.1 t (effCtx cfg context) [] (t.node [])

theorem pickCumulative_isSome {σ : Type} :
    ∀ (l : List σ) (f : σ → ℚ) (target : ℚ), (∀ a ∈ l, 0 ≤ f a) →
      0 ≤ target → target < (l.map f).sum →
      ∃ a, pickCumulative l f target = some a := by
  intro l
  induction l with
  | nil => intro f target _ h0 hlt; simp at hlt; linarith
  | cons x rest ih =>
    intro f target hnn h0 hlt
    by_cases hx : target < f x
    · exact ⟨x, by simp [pickCumulative, hx]⟩
    · have hfx : f x ≤ target := not_lt.mp hx
      have h0x : 0 ≤ target - f x := by linarith
      have hltx : target - f x < (rest.map f).sum := by
        simp at hlt; linarith
      obtain ⟨a, ha⟩ := ih f (target - f x)
        (fun a h => hnn a (List.mem_cons_of_mem x h)) h0x hltx
      exact ⟨a, by simp [pickCumulative, hx, ha]⟩

theorem pickCumulative_pos {σ : Type} :
    ∀ (l : List σ) (f : σ → ℚ) (target : ℚ) (a : σ), 0 ≤ target →
      pickCumulative l f target = some a → a ∈ l ∧ 0 < f a := by
  intro l
  induction l with
  | nil => intro f target a _ h; simp [pickCumulative] at h
  | cons x rest ih =>
    intro f target a h0 h
    by_cases hx : target < f x
    · simp [pickCumulative, hx] at h
      rw [← h]
      exact ⟨List.mem_cons_self x rest, lt_of_le_of_lt h0 hx⟩
    · simp only [pickCumulative, if_neg hx] at h
      have hfx : f x ≤ target := not_lt.mp hx
      have := ih f (target - f x) a (by linarith) h
      exact ⟨List.mem_cons_of_mem x this.1, this.2⟩

/-- C6: rejection sampling never returns a symbol with zero raw
observed count at the deepest reached context node unless every
alphabet symbol has zero raw count there (in which case the restriction
is waived and the unrestricted distribution is used), and sampling
never fails: for every uniform draw in [0,1) some symbol is returned. -/
theorem rejection_sampling_no_unseen_symbol {σ : Type} [DecidableEq σ]
    (cfg : Config σ) (h : cfg.Valid) {t : Tree σ} (hinv : TreeInv t)
    (context : List σ) (u : ℚ) (hu0 : 0 ≤ u) (hu1 : u < 1) :
    (∃ s, ctsSample cfg t context true u = some s) ∧
      (∀ s, ctsSample cfg t context true u = some s →
        (t.node (deepestPath t [] (effCtx cfg context))).counts s ≠ 0 ∨
          allZeroRaw cfg t context = true) ∧
      (allZeroRaw cfg t context = true →
        ctsSample cfg t context true u = ctsSample cfg t context false u) := by
  have hnn : ∀ a ∈ cfg.alphabet,
      0 ≤ sampleWeight cfg t context true a :=
    fun a _ => sampleWeight_nonneg h hinv context true a
  have hnn2 : ∀ x ∈ cfg.alphabet.map (sampleWeight cfg t context true),
      (0:ℚ) ≤ x := by
    intro x hx
    obtain ⟨a, ha, rfl⟩ := List.mem_map.mp hx
    exact hnn a ha
  have htotnn : (0:ℚ) ≤ (cfg.alphabet.map
      (sampleWeight cfg t context true)).sum := List.sum_nonneg hnn2
  have hsample : ctsSample cfg t context true u =
      pickCumulative cfg.alphabet (sampleWeight cfg t context true)
        (u * (cfg.alphabet.map (sampleWeight cfg t context true)).sum) := rfl
  refine ⟨?_, ?_, ?_⟩
  · by_cases hz : allZeroRaw cfg t context = true
    · have hfun := (sampleWeight_allZero cfg t context hz).trans
        (sampleWeight_false_eq cfg t context)
      have hsum : (cfg.alphabet.map (sampleWeight cfg t context true)).sum
          = 1 := by rw [hfun]; exact ctsPredict_sum_one h t context
      rw [hsample, hsum]
      exact pickCumulative_isSome cfg.alphabet _ (u * 1) hnn
        (by linarith) (by rw [hsum]; linarith)
    · have hz2 : allZeroRaw cfg t context = false := by
        simpa using hz
      obtain ⟨s0, hs0mem, hs0⟩ : ∃ a ∈ cfg.alphabet,
          (t.node (deepestPath t [] (effCtx cfg context))).counts a ≠ 0 := by
        have := hz2
        simp only [allZeroRaw, List.all_eq_false, beq_iff_eq] at this
        obtain ⟨a, ha, hne⟩ := this
        exact ⟨a, ha, hne⟩
      have hfs0 : sampleWeight cfg t context true s0 =
          ctsPredict cfg t context s0 := by
        simp [sampleWeight, hz2, hs0]
      have hfs0pos : 0 < sampleWeight cfg t context true s0 := by
        rw [hfs0]; exact ctsPredict_pos h hinv context s0
      have htot : 0 < (cfg.alphabet.map
          (sampleWeight cfg t context true)).sum :=
        lt_of_lt_of_le hfs0pos (List.single_le_sum hnn2 _
          (List.mem_map_of_mem _ hs0mem))
      rw [hsample]
      refine pickCumulative_isSome cfg.alphabet _ _ hnn
        (mul_nonneg hu0 htotnn) ?_
      calc u * (cfg.alphabet.map (sampleWeight cfg t context true)).sum
          < 1 * (cfg.alphabet.map (sampleWeight cfg t context true)).sum :=
            mul_lt_mul_of_pos_right hu1 htot
        _ = _ := one_mul _
  · intro s hs
    rw [hsample] at hs
    have := pickCumulative_pos cfg.alphabet _ _ s
      (mul_nonneg hu0 htotnn) hs
    by_cases hz : allZeroRaw cfg t context = true
    · exact Or.inr hz
    · have hz2 : allZeroRaw cfg t context = false := by simpa using hz
      left
      intro hcount
      have : sampleWeight cfg t context true s = 0 := by
        simp [sampleWeight, hz2, hcount]
      linarith [this ▸ (pickCumulative_pos cfg.alphabet _ _ s
        (mul_nonneg hu0 htotnn) hs).2]
  · intro hz
    have hfun := sampleWeight_allZero cfg t context hz
    simp [ctsSample, hfun]

/-- C6 witness: sampling with rejection on the untrained {0,1} model at
draw 1/3 succeeds (the all-zero waiver applies there). -/
theorem rejection_sampling_no_unseen_symbol_witness :
    natCfg.Valid ∧ (0:ℚ) ≤ 1 / 3 ∧ (1:ℚ) / 3 < 1 ∧
      ∃ s, ctsSample natCfg (Tree.init Nat) [] true (1 / 3) = some s :=
  ⟨natCfg_valid, by norm_num, by norm_num,
    (rejection_sampling_no_unseen_symbol natCfg natCfg_valid TreeInv_init
      [] (1 / 3) (by norm_num) (by norm_num)).1⟩

end SkipCTS
